import Mathlib

/-!
# Verification of the yuque-squirrel synchronization core

Shallow embedding of the repository's Rust sources:

* `src/store.rs` — the backup store (`MainMetadata`, `needs_backup`,
  `track_backup`);
* `src/net.rs`  — the rate limiter `cool` and the `resource` download;
* `src/main.rs` — the per-document sync step and the run loop.

Modelling conventions:

* `time::OffsetDateTime` timestamps are modelled as `Int`, read at the
  precision of the ISO-8601 encoding used by the program (at that precision
  the encoding is injective, so an `Int` per representable instant is
  faithful).
* `std::collections::HashMap<i64, V>` is modelled as an association list
  `List (Int × V)` with first-match lookup.  Every map the program builds
  starts empty and is only mutated through the operations modelled here, so
  keys are distinct in every reachable state; the theorems that need that
  invariant take it as an explicit `Nodup` hypothesis.
* Fallible I/O is explicit: fetch results are `Except String Doc` inputs,
  filesystem state is an explicit association list from paths to contents,
  and `tokio::fs::File::create_new` is modelled by its contract (fail when
  the destination exists).
-/

namespace YuqueSquirrel

/-- `time::OffsetDateTime`, at ISO-8601 encoding precision. -/
abbrev Timestamp := Int

/-- `BackupTime` (store.rs:16): a transparent wrapper around a timestamp,
serialized as an ISO-8601 string. -/
structure BackupTime where
  t : Timestamp
deriving Repr, DecidableEq

/-- `MetaItem` (store.rs:18-22): per-document backup record. -/
structure MetaItem where
  last_updated : BackupTime
  backups : List BackupTime
deriving Repr, DecidableEq

/-- `Repo` (main.rs:65-72): a repository ("book") snapshot. -/
structure Repo where
  id : Int
  slug : String
  name : String
  updated_at : Timestamp
deriving Repr, DecidableEq

/-- `RawDocMeta` (main.rs:74-79).  The store only ever reads
`meta.raw.id` and `meta.raw.updated_at` of a `DocMeta`, so the `DocMeta`
wrapper's `&Repo` back-reference and `Rc` sharing (main.rs:81-85) carry no
information for the properties verified here and are dropped. -/
structure DocMeta where
  id : Int
  updated_at : Timestamp
deriving Repr, DecidableEq

/-- Model of `std::collections::HashMap<i64, V>` as an association list of
entries with first-match lookup. -/
structure HMap (α : Type) where
  entries : List (Int × α)
deriving Repr, DecidableEq

namespace HMap

variable {κ : Type} [DecidableEq κ]

/-- First-match lookup on an entry list. -/
def getL : List (κ × α) → κ → Option α
  | [], _ => none
  | p :: l, k => if p.1 = k then some p.2 else getL l k

/-- Rewrite in place the value stored at key `k` in an entry list (the
effect of mutating through `HashMap::get_mut`). -/
def modifyL : List (κ × α) → κ → (α → α) → List (κ × α)
  | [], _, _ => []
  | p :: l, k, f => (if p.1 = k then (p.1, f p.2) else p) :: modifyL l k f

/-- `HashMap::get`. -/
def get (m : HMap α) (k : Int) : Option α := getL m.entries k

/-- Mutation through `HashMap::get_mut` at a key that may be absent (then a
no-op). -/
def modify (m : HMap α) (k : Int) (f : α → α) : HMap α := ⟨modifyL m.entries k f⟩

/-- `HashMap::insert`: overwrite the binding when the key is present,
otherwise add a new binding. -/
def insert (m : HMap α) (k : Int) (v : α) : HMap α :=
  if (m.get k).isSome then m.modify k (fun _ => v) else ⟨m.entries ++ [(k, v)]⟩

/-- Insert a list of bindings in order (`HashMap::extend`, and the map
deserialization loop). -/
def ofList (m : HMap α) (l : List (Int × α)) : HMap α :=
  l.foldl (fun acc p => acc.insert p.1 p.2) m

/-- The keys, in binding order. -/
def keys (m : HMap α) : List Int := m.entries.map Prod.fst

end HMap

/-- `MainMetadata` (store.rs:8-12): the persisted store.  `Default` derives
to two empty maps. -/
structure MainMetadata where
  items : HMap MetaItem
  books : HMap Repo
deriving Repr, DecidableEq

/-- `Default::default()` for `MainMetadata`: empty `items` and `books`. -/
def MainMetadata.default : MainMetadata := ⟨⟨[]⟩, ⟨[]⟩⟩

/-- `MainMetadata::needs_backup` (store.rs:26-31):
`!self.items.get(&meta.raw.id).is_some_and(|m| m.last_updated.0 >= meta.raw.updated_at)`. -/
def MainMetadata.needs_backup (s : MainMetadata) (meta : DocMeta) : Bool :=
  !(match s.items.get meta.id with
    | some m => decide (meta.updated_at ≤ m.last_updated.t)
    | none => false)

/-- `MainMetadata::track_backup` (store.rs:34-48): upsert the record for
`meta.raw.id`, setting `last_updated` to `meta.raw.updated_at` and pushing
the same timestamp onto `backups`. -/
def MainMetadata.track_backup (s : MainMetadata) (meta : DocMeta) : MainMetadata :=
  let time : BackupTime := ⟨meta.updated_at⟩
  match s.items.get meta.id with
  | some _ =>
      let items := s.items.modify meta.id
        (fun m => { last_updated := time, backups := m.backups ++ [time] })
      { s with items := items }
  | none =>
      let items := s.items.insert meta.id { last_updated := time, backups := [time] }
      { s with items := items }

/-! ## Lookup lemmas for the `HashMap` model -/

namespace HMap

variable {κ : Type} [DecidableEq κ]

theorem getL_modifyL_self (l : List (κ × α)) (k : κ) (f : α → α) :
    getL (modifyL l k f) k = (getL l k).map f := by
  induction l with
  | nil => rfl
  | cons p t ih =>
    by_cases h : p.1 = k
    · simp [getL, modifyL, h]
    · simp [getL, modifyL, h, ih]

theorem getL_modifyL_ne (l : List (κ × α)) (k j : κ) (f : α → α)
    (h : j ≠ k) :
    getL (modifyL l k f) j = getL l j := by
  induction l with
  | nil => rfl
  | cons p t ih =>
    by_cases hpk : p.1 = k
    · have hpj : ¬ p.1 = j := fun hj => h (hj ▸ hpk)
      simp [getL, modifyL, hpk, hpj, ih, Ne.symm h]
    · by_cases hpj : p.1 = j
      · simp [getL, modifyL, hpk, hpj, h]
      · simp [getL, modifyL, hpk, hpj, ih]

theorem getL_append (l₁ l₂ : List (κ × α)) (k : κ) :
    getL (l₁ ++ l₂) k = (getL l₁ k).or (getL l₂ k) := by
  induction l₁ with
  | nil => simp [getL]
  | cons p t ih =>
    by_cases h : p.1 = k
    · simp [getL, h]
    · simp [getL, h, ih]

theorem get_modify_self (m : HMap α) (k : Int) (f : α → α) :
    (m.modify k f).get k = (m.get k).map f :=
  getL_modifyL_self m.entries k f

theorem get_modify_ne (m : HMap α) (k j : Int) (f : α → α) (h : j ≠ k) :
    (m.modify k f).get j = m.get j :=
  getL_modifyL_ne m.entries k j f h

theorem get_insert_self (m : HMap α) (k : Int) (v : α) :
    (m.insert k v).get k = some v := by
  unfold insert
  by_cases h : (m.get k).isSome
  · rw [if_pos h]
    rcases Option.isSome_iff_exists.mp h with ⟨w, hw⟩
    rw [get_modify_self, hw]
    rfl
  · rw [if_neg h]
    have hn : m.get k = none := Option.not_isSome_iff_eq_none.mp h
    show getL (m.entries ++ [(k, v)]) k = some v
    rw [getL_append]
    have : getL m.entries k = none := hn
    simp [this, getL]

theorem get_insert_ne (m : HMap α) (k j : Int) (v : α) (h : j ≠ k) :
    (m.insert k v).get j = m.get j := by
  unfold insert
  by_cases hs : (m.get k).isSome
  · rw [if_pos hs]
    exact get_modify_ne m k j _ h
  · rw [if_neg hs]
    show getL (m.entries ++ [(k, v)]) j = m.get j
    rw [getL_append]
    have : getL [(k, v)] j = none := by
      simp [getL, if_neg (Ne.symm h)]
    simp [this, get]

end HMap

/-! ## Store lemmas -/

namespace MainMetadata

/-- The backup history recorded for `id` (empty when `id` is absent). -/
def storedBackups (s : MainMetadata) (id : Int) : List BackupTime :=
  match s.items.get id with
  | some r => r.backups
  | none => []

theorem get_track_self (s : MainMetadata) (m : DocMeta) :
    (s.track_backup m).items.get m.id =
      some ⟨⟨m.updated_at⟩, s.storedBackups m.id ++ [⟨m.updated_at⟩]⟩ := by
  unfold track_backup storedBackups
  cases h : s.items.get m.id with
  | some r => simp [HMap.get_modify_self, h]
  | none => simp [HMap.get_insert_self, h]

theorem get_track_ne (s : MainMetadata) (m : DocMeta) (j : Int) (h : j ≠ m.id) :
    (s.track_backup m).items.get j = s.items.get j := by
  unfold track_backup
  cases hg : s.items.get m.id with
  | some r => simp [HMap.get_modify_ne _ _ _ _ h]
  | none => simp [HMap.get_insert_ne _ _ _ _ h]

theorem books_track (s : MainMetadata) (m : DocMeta) :
    (s.track_backup m).books = s.books := by
  unfold track_backup
  cases s.items.get m.id <;> rfl

theorem needs_backup_eq_false_iff (s : MainMetadata) (m : DocMeta) :
    s.needs_backup m = false ↔
      ∃ r, s.items.get m.id = some r ∧ m.updated_at ≤ r.last_updated.t := by
  unfold needs_backup
  cases h : s.items.get m.id with
  | some r => by_cases hle : m.updated_at ≤ r.last_updated.t <;> simp [hle]
  | none => simp

end MainMetadata

/-! ## Claims about the backup store -/

/-- **C1.** `needs_backup` returns true unless a record exists for `meta.id`
whose `last_updated >= meta.updated_at`; it is false when the stored
watermark equals `meta.updated_at` exactly, true when `meta.updated_at` is
strictly greater, and true whenever `meta.id` is absent from the store. -/
theorem needs_backup_correct (s : MainMetadata) (m : DocMeta) :
    (s.needs_backup m = true ↔
      ¬ ∃ r, s.items.get m.id = some r ∧ m.updated_at ≤ r.last_updated.t) ∧
    (∀ r, s.items.get m.id = some r → r.last_updated.t = m.updated_at →
      s.needs_backup m = false) ∧
    (∀ r, s.items.get m.id = some r → r.last_updated.t < m.updated_at →
      s.needs_backup m = true) ∧
    (s.items.get m.id = none → s.needs_backup m = true) := by
  refine ⟨?_, ?_, ?_, ?_⟩
  · rw [← not_iff_not]
    simpa using s.needs_backup_eq_false_iff m
  · intro r hr he
    exact (s.needs_backup_eq_false_iff m).mpr ⟨r, hr, le_of_eq he.symm⟩
  · intro r hr hlt
    unfold MainMetadata.needs_backup
    simp [hr, not_le.mpr hlt]
  · intro h
    unfold MainMetadata.needs_backup
    simp [h]

/-- Witness for `needs_backup_correct` at a concrete store and metadata. -/
theorem needs_backup_correct_witness :
    MainMetadata.needs_backup ⟨⟨[(1, ⟨⟨10⟩, [⟨10⟩]⟩)]⟩, ⟨[]⟩⟩ ⟨1, 10⟩ = false :=
  (needs_backup_correct ⟨⟨[(1, ⟨⟨10⟩, [⟨10⟩]⟩)]⟩, ⟨[]⟩⟩ ⟨1, 10⟩).2.1
    ⟨⟨10⟩, [⟨10⟩]⟩ (by decide) (by decide)

/-- **C2.** For every document metadata `m` and every store state, calling
`track_backup m` and then `needs_backup m` on the resulting store returns
false. -/
theorem needs_backup_after_track (s : MainMetadata) (m : DocMeta) :
    (s.track_backup m).needs_backup m = false := by
  unfold MainMetadata.needs_backup
  rw [MainMetadata.get_track_self]
  simp

/-- **C5.** After `track_backup m1` then `track_backup m2` for the same
document id with `m2.updated_at > m1.updated_at`, the record's
`last_updated` equals `m2.updated_at` and `backups` holds `m1`'s timestamp
before `m2`'s (appended, in call order, to whatever history was already
recorded). -/
theorem track_track_watermark (s : MainMetadata) (m₁ m₂ : DocMeta)
    (hid : m₁.id = m₂.id) (hlt : m₁.updated_at < m₂.updated_at) :
    ((s.track_backup m₁).track_backup m₂).items.get m₂.id =
      some ⟨⟨m₂.updated_at⟩,
        s.storedBackups m₂.id ++ [⟨m₁.updated_at⟩, ⟨m₂.updated_at⟩]⟩ := by
  rw [MainMetadata.get_track_self]
  unfold MainMetadata.storedBackups
  rw [← hid, MainMetadata.get_track_self, hid]
  simp [MainMetadata.storedBackups, hid]

/-- Witness for `track_track_watermark` on an empty store. -/
theorem track_track_watermark_witness :
    ((MainMetadata.default.track_backup ⟨1, 3⟩).track_backup ⟨1, 7⟩).items.get 1 =
      some ⟨⟨7⟩, [⟨3⟩, ⟨7⟩]⟩ :=
  track_track_watermark MainMetadata.default ⟨1, 3⟩ ⟨1, 7⟩ rfl (by decide)

/-- **C10.** `track_backup m` modifies only the `items` entry keyed by
`m.id`: every record with a different document id and the entire `books`
map are unchanged.  (`needs_backup` takes the store by immutable reference
— in this embedding it is a pure function of the store, so it cannot modify
it at all.) -/
theorem track_backup_frame (s : MainMetadata) (m : DocMeta) (j : Int)
    (h : j ≠ m.id) :
    (s.track_backup m).items.get j = s.items.get j ∧
    (s.track_backup m).books = s.books :=
  ⟨s.get_track_ne m j h, s.books_track m⟩

/-- Witness for `track_backup_frame` at a concrete store. -/
theorem track_backup_frame_witness :
    (MainMetadata.track_backup ⟨⟨[(2, ⟨⟨5⟩, [⟨5⟩]⟩)]⟩, ⟨[(9, ⟨9, "s", "n", 4⟩)]⟩⟩
        ⟨1, 10⟩).items.get 2 =
      HMap.get ⟨[(2, ⟨⟨5⟩, [⟨5⟩]⟩)]⟩ 2 ∧
    (MainMetadata.track_backup ⟨⟨[(2, ⟨⟨5⟩, [⟨5⟩]⟩)]⟩, ⟨[(9, ⟨9, "s", "n", 4⟩)]⟩⟩
        ⟨1, 10⟩).books =
      ⟨[(9, ⟨9, "s", "n", 4⟩)]⟩ :=
  track_backup_frame ⟨⟨[(2, ⟨⟨5⟩, [⟨5⟩]⟩)]⟩, ⟨[(9, ⟨9, "s", "n", 4⟩)]⟩⟩ ⟨1, 10⟩ 2 (by decide)

/-! ## The rate limiter (`cool`, net.rs:105-116)

`cool` works on a shared cell `(usize, Instant)` initialised to
`(0, Instant::now())` at program start (main.rs:157).  Instants are
modelled in whole seconds from program start. -/

/-- The rate limiter's shared state: request count and window start. -/
structure RL where
  count : Nat
  window : Nat
deriving Repr, DecidableEq

/-- Outcome of the first poll of a `cool` call. -/
inductive CoolPoll
  | granted (st : RL)
  | parked (captured : Nat)
deriving Repr, DecidableEq

/-- First poll of `cool` (net.rs:107-110): read `(requests, i)`; if
`requests < limit`, write `(requests + 1, i)` and finish without
suspending; otherwise suspend until `i + 1s`, remembering the read window
start `i`. -/
def coolPoll (limit : Nat) (st : RL) : CoolPoll :=
  if st.count < limit then .granted ⟨st.count + 1, st.window⟩ else .parked st.window

/-- Resumption of `cool` after the sleep (net.rs:112-114), waking at time
`now`: reset the state to `(1, now)` only when the window is unchanged
since the call began (`cx.limit.get().1 == i`); a waiter that finds the
window already reset proceeds without touching the state. -/
def coolWake (st : RL) (captured now : Nat) : RL :=
  if st.window = captured then ⟨1, now⟩ else st

/-- Polling one queued `cool` call during the initial burst at time 0. -/
def burstStep1 (limit : Nat) (acc : RL × List Nat × List Nat) (_i : Nat) :
    RL × List Nat × List Nat :=
  match coolPoll limit acc.1 with
  | .granted st => (st, acc.2.1 ++ [0], acc.2.2)
  | .parked i => (acc.1, acc.2.1, acc.2.2 ++ [i])

/-- Resuming one parked `cool` call at its wake time `captured + 1`. -/
def burstStep2 (acc : RL × List Nat) (captured : Nat) : RL × List Nat :=
  (coolWake acc.1 captured (captured + 1), acc.2 ++ [captured + 1])

/-- Simulation of `k` back-to-back `cool` calls on the single-threaded
cooperative runtime (main.rs:174-176), from the initial state `(0, now)`
(main.rs:157), with time 0 at the burst: the `k` futures are polled in
order at time 0 (the fast path completes within the poll, the slow path
parks, capturing the window start it read); parked tasks sleep until
`captured + 1s` and are resumed in order.  Returns the times at which the
calls were granted (allowed to proceed to their request).  The resumption
order does not affect the multiset of grant times: every parked task is
granted at its wake instant. -/
def burstGrants (limit k : Nat) : List Nat :=
  let p1 := (List.range k).foldl (burstStep1 limit) (⟨0, 0⟩, [], [])
  (p1.2.2.foldl burstStep2 (p1.1, p1.2.1)).2

/-- Number of grants falling in the 1-second window `[a, a + 1)`. -/
def grantsInWindow (gs : List Nat) (a : Nat) : Nat :=
  (gs.filter (fun t => a ≤ t && t < a + 1)).length

theorem burst_phase1 (limit k : Nat) :
    (List.range k).foldl (burstStep1 limit) (⟨0, 0⟩, [], []) =
      (⟨min k limit, 0⟩, List.replicate (min k limit) 0,
        List.replicate (k - limit) 0) := by
  induction k with
  | zero => simp
  | succ k ih =>
    rw [List.range_succ, List.foldl_append, ih]
    unfold burstStep1 coolPoll
    by_cases h : k < limit
    · have h1 : min k limit < limit := by omega
      have h2 : min (k + 1) limit = min k limit + 1 := by omega
      have h3 : k + 1 - limit = k - limit := by omega
      simp only [h2, h3]
      simp [h1, ← List.replicate_succ' (n := min k limit)]
    · have h1 : ¬ min k limit < limit := by omega
      have h2 : min (k + 1) limit = min k limit := by omega
      have h3 : k + 1 - limit = (k - limit) + 1 := by omega
      simp only [h2, h3]
      simp [h1, ← List.replicate_succ' (n := k - limit)]

theorem burst_phase2_reset (m : Nat) (gs : List Nat) :
    (List.replicate m 0).foldl burstStep2 (⟨1, 1⟩, gs) =
      (⟨1, 1⟩, gs ++ List.replicate m 1) := by
  induction m generalizing gs with
  | zero => simp
  | succ m ih =>
    rw [List.replicate_succ, List.foldl_cons]
    have : burstStep2 (⟨1, 1⟩, gs) 0 = (⟨1, 1⟩, gs ++ [1]) := by
      simp [burstStep2, coolWake]
    rw [this, ih]
    simp [List.replicate_succ]

theorem burst_phase2 (m : Nat) (gs : List Nat) (st : RL) (hw : st.window = 0)
    (hm : 0 < m) :
    (List.replicate m 0).foldl burstStep2 (st, gs) =
      (⟨1, 1⟩, gs ++ List.replicate m 1) := by
  obtain ⟨m', rfl⟩ : ∃ m', m = m' + 1 := ⟨m - 1, by omega⟩
  rw [List.replicate_succ, List.foldl_cons]
  have : burstStep2 (st, gs) 0 = (⟨1, 1⟩, gs ++ [1]) := by
    simp [burstStep2, coolWake, hw]
  rw [this, burst_phase2_reset]
  simp [List.replicate_succ]

theorem length_filter_replicate (p : Nat → Bool) (n x : Nat) :
    ((List.replicate n x).filter p).length = if p x then n else 0 := by
  induction n with
  | zero => simp
  | succ n ih =>
    rw [List.replicate_succ, List.filter_cons]
    by_cases h : p x <;> simp [h, ih]

/-- The times of the grants produced by a burst of `k` back-to-back
`cool` calls: `min k limit` grants at the burst instant, and all the
remaining `k - limit` grants together one second later. -/
theorem burstGrants_eq (limit k : Nat) :
    burstGrants limit k =
      List.replicate (min k limit) 0 ++ List.replicate (k - limit) 1 := by
  simp only [burstGrants, burst_phase1]
  by_cases h : k ≤ limit
  · have : k - limit = 0 := by omega
    simp [this]
  · have hm : 0 < k - limit := by omega
    rw [burst_phase2 _ _ _ rfl hm]

/-- **C4 (counterexample).**  With `limit = 1` and a burst of `3 > 1`
back-to-back acquire calls, the 1-second window starting one second after
the burst contains `2 > 1` granted requests: the claim's rate ceiling does
not hold on the code. -/
theorem rate_ceiling_counterexample :
    (1 : Nat) < 3 ∧ 1 < grantsInWindow (burstGrants 1 3) 1 := by decide

/-- **C4 (amended).**  When `count < limit`, an acquire increments the
counter and proceeds without suspension; otherwise it suspends until
`window_start + 1s` and then resets the counter to `(1, now)` *only if no
other waiter already reset the window* — later waiters proceed without
counting themselves.  Consequently a burst of `k` back-to-back acquires is
granted as `min k limit` requests at the burst instant and the remaining
`k - limit` requests together one second later, so a 1-second window at
the gate contains up to `max limit (k - limit)` granted requests — more
than `limit` whenever `k - limit > limit` — rather than at most `limit`. -/
theorem burst_grants_window_bound (limit k : Nat) :
    (∀ st : RL, st.count < limit →
      coolPoll limit st = .granted ⟨st.count + 1, st.window⟩) ∧
    (∀ st : RL, ¬ st.count < limit → coolPoll limit st = .parked st.window) ∧
    burstGrants limit k =
      List.replicate (min k limit) 0 ++ List.replicate (k - limit) 1 ∧
    (∀ a, grantsInWindow (burstGrants limit k) a ≤ max limit (k - limit)) := by
  refine ⟨fun st h => by simp [coolPoll, h], fun st h => by simp [coolPoll, h],
    burstGrants_eq limit k, fun a => ?_⟩
  rw [burstGrants_eq]
  unfold grantsInWindow
  rw [List.filter_append, List.length_append,
    length_filter_replicate, length_filter_replicate]
  match a with
  | 0 => simp
  | 1 => simp
  | (a + 2) =>
    have h0 : (decide (a + 2 ≤ 0) && decide (0 < a + 2 + 1)) = false := by
      simp
    have h1 : (decide (a + 2 ≤ 1) && decide (1 < a + 2 + 1)) = false := by
      simp
    rw [h0, h1]
    simp

/-- Witness for `burst_grants_window_bound` at `limit = 1`, `k = 3`. -/
theorem burst_grants_window_bound_witness :
    burstGrants 1 3 = List.replicate (min 3 1) 0 ++ List.replicate (3 - 1) 1 :=
  (burst_grants_window_bound 1 3).2.2.1

/-! ## The per-document sync step and the run loop (main.rs, net.rs) -/

/-- `Doc` (main.rs:87-108): the full document record. -/
structure Doc where
  id : Int
  ty : String
  slug : String
  title : String
  book_id : Int
  description : String
  format : String
  updated_at : Timestamp
  body : Option String
  body_sheet : Option String
  body_html : Option String
  body_lake : Option String
deriving Repr, DecidableEq

/-- A destination path inside this run's backup directory.  The document
file `backup_path/doc{id}.json` (main.rs:202-204) is determined by the
document id (the decimal rendering of an `i64` is injective), so it is
modelled by the id; fetched resources go to `files_path/{name}`
(main.rs:221). -/
inductive FsPath
  | docFile (id : Int)
  | resourceFile (name : String)
deriving Repr, DecidableEq

/-- Contents of a file in the backup directory.  `created` is a file that
`File::create_new` produced but whose contents were not (or not
completely) written; `docJson d` stands for the bytes of
`serde_json::to_vec_pretty(&doc)` (injective in `d`); `resourceBytes` for
the streamed chunks of a resource response. -/
inductive FileContent
  | created
  | docJson (d : Doc)
  | resourceBytes (chunks : List (List Nat))
deriving Repr, DecidableEq

/-- The run's backup directory, freshly created and empty at startup
(main.rs:147-151): a map from paths to file contents. -/
abbrev FileSys := List (FsPath × FileContent)

/-- Modelled from the spec: `tokio::fs::File::create_new` — "creation
fails loudly if the file already exists (never silently overwritten)".
The primitive lives in the standard library, outside this repository's
sources.  On success an empty file appears at the path; on failure the
filesystem is untouched. -/
def createNew (fs : FileSys) (p : FsPath) : Except String FileSys :=
  if (HMap.getL fs p).isSome then .error "AlreadyExists"
  else .ok (fs ++ [(p, .created)])

/-- Overwrite the contents of an already-created file (the effect of
`write_all` on the freshly created handle). -/
def fsWrite (fs : FileSys) (p : FsPath) (c : FileContent) : FileSys :=
  HMap.modifyL fs p (fun _ => c)

/-- `net::resource` (net.rs:88-103): create the destination with
`File::create_new` (net.rs:97) and stream the response chunks into it. -/
def resource (fs : FileSys) (p : FsPath) (chunks : List (List Nat)) :
    Except String FileSys :=
  match createNew fs p with
  | .error e => .error e
  | .ok fs1 => .ok (fsWrite fs1 p (.resourceBytes chunks))

/-- Observable events of one per-document task, in execution order. -/
inductive Ev
  | fetchErr
  | fetchOk
  | createErr
  | createOk
  | writeErr
  | writeOk
  | flushErr
  | flushOk
  | tracked
  | resourceErr
  | resourceOk
deriving Repr, DecidableEq

/-- Outcome oracle for one document's external effects: the result of the
`net::doc` fetch, and whether `write_all`, `flush`, and the optional
resource downloads of the body's links succeed.  (The resource downloads
write only under `files/` and never touch the store; they are aggregated
into one flag here, their `files/` writes are modelled separately by
`resource`.) -/
structure DocOutcome where
  fetch : Except String Doc
  writeOk : Bool
  flushOk : Bool
  resourcesOk : Bool
deriving Repr

/-- The backup itself succeeded: the fetch, the body write and the flush
all went through (resource downloads happen after tracking and do not
affect it). -/
def DocOutcome.success (o : DocOutcome) : Bool :=
  (match o.fetch with | .ok _ => true | .error _ => false) && o.writeOk && o.flushOk

/-- Result of one per-document task. -/
structure StepResult where
  store : MainMetadata
  fs : FileSys
  trace : List Ev
  ok : Bool
deriving Repr

/-- The per-document task body (main.rs:198-228): fetch the document
(`net::doc`), create the backup file `doc{id}.json` with
`File::create_new`, `write_all` the serialized document, `flush`, and only
then `store.track_backup(&m)`; afterwards scan the body and fetch linked
resources.  Any failure exits the task early through `?`; `join_all`
discards the task's result (main.rs:193, 230). -/
def docStep (s : MainMetadata) (fs : FileSys) (m : DocMeta) (o : DocOutcome) :
    StepResult :=
  match o.fetch with
  | .error _ => ⟨s, fs, [.fetchErr], false⟩
  | .ok doc =>
    match createNew fs (.docFile m.id) with
    | .error _ => ⟨s, fs, [.fetchOk, .createErr], false⟩
    | .ok fs1 =>
      if o.writeOk then
        let fs2 := fsWrite fs1 (.docFile m.id) (.docJson doc)
        if o.flushOk then
          if o.resourcesOk then
            ⟨s.track_backup m, fs2,
              [.fetchOk, .createOk, .writeOk, .flushOk, .tracked, .resourceOk], true⟩
          else
            ⟨s.track_backup m, fs2,
              [.fetchOk, .createOk, .writeOk, .flushOk, .tracked, .resourceErr], false⟩
        else ⟨s, fs2, [.fetchOk, .createOk, .writeOk, .flushErr], false⟩
      else ⟨s, fs1, [.fetchOk, .createOk, .writeErr], false⟩

/-- One processed document: its metadata and its outcome oracle. -/
abbrev RunDoc := DocMeta × DocOutcome

/-- The store/filesystem effect of one per-document task. -/
def stepPair (st : MainMetadata × FileSys) (d : RunDoc) :
    MainMetadata × FileSys :=
  (docStep st.1 st.2 d.1 d.2 |>.store, docStep st.1 st.2 d.1 d.2 |>.fs)

/-- One `join_all` over a chunk of documents (main.rs:192-231): the chunk
is filtered by `needs_backup` against the store as it stands when the
futures are built (main.rs:196), then the tasks run; `join_all`'s results
are discarded (`let _ =`, main.rs:193).  On the single-threaded runtime
the tasks' store and filesystem accesses are serialized; they are taken in
chunk order (the effects of documents with distinct ids commute). -/
def runChunk (acc : MainMetadata × FileSys) (chunk : List RunDoc) :
    MainMetadata × FileSys :=
  (chunk.filter (fun d => acc.1.needs_backup d.1)).foldl stepPair acc

/-- `metas.chunks(8)` (main.rs:192). -/
def chunks8 : List α → List (List α)
  | [] => []
  | x :: xs => (x :: xs.take 7) :: chunks8 (xs.drop 7)
termination_by l => l.length
decreasing_by simp only [List.length_drop, List.length_cons]; omega

/-- The document loop of one repository (main.rs:192-231): the metadata
list is processed in chunks of 8, in order. -/
def runMetas (s : MainMetadata) (fs : FileSys) (docs : List RunDoc) :
    MainMetadata × FileSys :=
  (chunks8 docs).foldl runChunk (s, fs)

/-! ## Case lemmas for the per-document step -/

theorem docStep_store_eq_or (s : MainMetadata) (fs : FileSys) (m : DocMeta)
    (o : DocOutcome) :
    (docStep s fs m o).store = s ∨
      (docStep s fs m o).store = s.track_backup m := by
  cases hf : o.fetch with
  | error e => left; simp [docStep, hf]
  | ok doc =>
    by_cases hc : (HMap.getL fs (FsPath.docFile m.id)).isSome
    · left; simp [docStep, hf, createNew, hc]
    · by_cases hw : o.writeOk
      · by_cases hfl : o.flushOk
        · by_cases hr : o.resourcesOk
          · right; simp [docStep, hf, createNew, hc, hw, hfl, hr]
          · right; simp [docStep, hf, createNew, hc, hw, hfl, hr]
        · left; simp [docStep, hf, createNew, hc, hw, hfl]
      · left; simp [docStep, hf, createNew, hc, hw]

theorem docStep_store_of_success (s : MainMetadata) (fs : FileSys)
    (m : DocMeta) (o : DocOutcome) (hs : o.success = true)
    (hp : HMap.getL fs (FsPath.docFile m.id) = none) :
    (docStep s fs m o).store = s.track_backup m := by
  cases hf : o.fetch with
  | error e => simp [DocOutcome.success, hf] at hs
  | ok doc =>
    have hw : o.writeOk = true := by
      simp [DocOutcome.success, hf] at hs; exact hs.1
    have hfl : o.flushOk = true := by
      simp [DocOutcome.success, hf] at hs; exact hs.2
    have hc : ¬ (HMap.getL fs (FsPath.docFile m.id)).isSome := by simp [hp]
    by_cases hr : o.resourcesOk
    · simp [docStep, hf, createNew, hc, hw, hfl, hr]
    · simp [docStep, hf, createNew, hc, hw, hfl, hr]

theorem docStep_store_of_fail (s : MainMetadata) (fs : FileSys)
    (m : DocMeta) (o : DocOutcome) (hs : o.success = false) :
    (docStep s fs m o).store = s := by
  cases hf : o.fetch with
  | error e => simp [docStep, hf]
  | ok doc =>
    by_cases hc : (HMap.getL fs (FsPath.docFile m.id)).isSome
    · simp [docStep, hf, createNew, hc]
    · simp [DocOutcome.success, hf] at hs
      by_cases hw : o.writeOk
      · have hfl : o.flushOk = false := hs hw
        simp [docStep, hf, createNew, hc, hw, hfl]
      · simp [docStep, hf, createNew, hc, hw]

theorem docStep_fs_existing (s : MainMetadata) (fs : FileSys) (m : DocMeta)
    (o : DocOutcome) (h : (HMap.getL fs (FsPath.docFile m.id)).isSome) :
    (docStep s fs m o).fs = fs ∧ (docStep s fs m o).ok = false ∧
      (docStep s fs m o).store = s := by
  cases hf : o.fetch with
  | error e => simp [docStep, hf]
  | ok doc => simp [docStep, hf, createNew, h]

theorem docStep_fs_frame (s : MainMetadata) (fs : FileSys) (m : DocMeta)
    (o : DocOutcome) (q : FsPath) (hq : q ≠ FsPath.docFile m.id) :
    HMap.getL (docStep s fs m o).fs q = HMap.getL fs q := by
  have hsingle : HMap.getL [(FsPath.docFile m.id, FileContent.created)] q = none := by
    simp [HMap.getL, Ne.symm hq]
  cases hf : o.fetch with
  | error e => simp [docStep, hf]
  | ok doc =>
    by_cases hc : (HMap.getL fs (FsPath.docFile m.id)).isSome
    · simp [docStep, hf, createNew, hc]
    · by_cases hw : o.writeOk
      · by_cases hfl : o.flushOk
        · by_cases hr : o.resourcesOk
          · simp [docStep, hf, createNew, hc, hw, hfl, hr, fsWrite,
              HMap.getL_modifyL_ne _ _ _ _ hq, HMap.getL_append, hsingle]
          · simp [docStep, hf, createNew, hc, hw, hfl, hr, fsWrite,
              HMap.getL_modifyL_ne _ _ _ _ hq, HMap.getL_append, hsingle]
        · simp [docStep, hf, createNew, hc, hw, hfl, fsWrite,
            HMap.getL_modifyL_ne _ _ _ _ hq, HMap.getL_append, hsingle]
      · simp [docStep, hf, createNew, hc, hw, HMap.getL_append, hsingle]

/-! ## Claims about the per-document step -/

/-- **C3.** In the per-document step, `track_backup` is invoked only after
the document's backup file write has fully completed and been flushed (the
`tracked` event can only occur right after `flushOk` in the task's trace);
if the fetch, the file creation, or the write (including its flush) fails,
`track_backup` is never reached, the store is left unchanged, and
`needs_backup` answers for this document exactly as before the step. -/
theorem track_only_after_durable_write (s : MainMetadata) (fs : FileSys)
    (m : DocMeta) (o : DocOutcome) :
    (Ev.tracked ∈ (docStep s fs m o).trace →
      ∃ rest, (docStep s fs m o).trace =
        [.fetchOk, .createOk, .writeOk, .flushOk, .tracked] ++ rest) ∧
    ((∃ e, o.fetch = .error e) ∨
        (HMap.getL fs (FsPath.docFile m.id)).isSome = true ∨
        o.writeOk = false ∨ o.flushOk = false →
      (docStep s fs m o).store = s ∧
        (docStep s fs m o).store.needs_backup m = s.needs_backup m) := by
  cases hf : o.fetch with
  | error e => exact ⟨by simp [docStep, hf], fun _ => by simp [docStep, hf]⟩
  | ok doc =>
    by_cases hc : (HMap.getL fs (FsPath.docFile m.id)).isSome
    · exact ⟨by simp [docStep, hf, createNew, hc],
        fun _ => by simp [docStep, hf, createNew, hc]⟩
    · by_cases hw : o.writeOk
      · by_cases hfl : o.flushOk
        · constructor
          · intro _
            by_cases hr : o.resourcesOk
            · exact ⟨[.resourceOk], by simp [docStep, hf, createNew, hc, hw, hfl, hr]⟩
            · exact ⟨[.resourceErr], by simp [docStep, hf, createNew, hc, hw, hfl, hr]⟩
          · intro h
            rcases h with ⟨e, he⟩ | h | h | h
            · simp [hf] at he
            · exact absurd h (by simp [hc])
            · exact absurd hw (by simp [h])
            · exact absurd hfl (by simp [h])
        · exact ⟨by simp [docStep, hf, createNew, hc, hw, hfl],
            fun _ => by simp [docStep, hf, createNew, hc, hw, hfl]⟩
      · exact ⟨by simp [docStep, hf, createNew, hc, hw],
          fun _ => by simp [docStep, hf, createNew, hc, hw]⟩

/-- Witness for `track_only_after_durable_write`: a failed fetch leaves the
store unchanged. -/
theorem track_only_after_durable_write_witness :
    (docStep MainMetadata.default [] ⟨1, 5⟩ ⟨.error "timeout", true, true, true⟩).store =
        MainMetadata.default ∧
      (docStep MainMetadata.default [] ⟨1, 5⟩
            ⟨.error "timeout", true, true, true⟩).store.needs_backup ⟨1, 5⟩ =
        MainMetadata.default.needs_backup ⟨1, 5⟩ :=
  (track_only_after_durable_write MainMetadata.default [] ⟨1, 5⟩
      ⟨.error "timeout", true, true, true⟩).2 (.inl ⟨"timeout", rfl⟩)

/-- **C7.** Writing a backup file — a per-document file or a fetched
resource — whose destination path already exists fails with an error and
leaves the existing file's contents unmodified: `resource` fails before
touching anything, and the per-document step leaves the whole filesystem
unchanged and reports failure. -/
theorem no_silent_overwrite (fs : FileSys) (p : FsPath) (c : FileContent)
    (h : HMap.getL fs p = some c) :
    (∀ chunks, resource fs p chunks = .error "AlreadyExists") ∧
    (∀ s m o, HMap.getL (docStep s fs m o).fs p = some c) ∧
    (∀ s m o, p = FsPath.docFile m.id →
      (docStep s fs m o).fs = fs ∧ (docStep s fs m o).ok = false) := by
  have hsome : (HMap.getL fs p).isSome := by simp [h]
  refine ⟨fun chunks => by simp [resource, createNew, hsome], ?_, ?_⟩
  · intro s m o
    by_cases hq : p = FsPath.docFile m.id
    · rw [(docStep_fs_existing s fs m o (hq ▸ hsome)).1, h]
    · rw [docStep_fs_frame s fs m o p hq, h]
  · intro s m o hq
    have := docStep_fs_existing s fs m o (hq ▸ hsome)
    exact ⟨this.1, this.2.1⟩

/-- Witness for `no_silent_overwrite` at a concrete filesystem. -/
theorem no_silent_overwrite_witness :
    resource [(FsPath.resourceFile "a.png", FileContent.created)]
        (FsPath.resourceFile "a.png") [[1, 2]] = .error "AlreadyExists" :=
  (no_silent_overwrite [(FsPath.resourceFile "a.png", FileContent.created)]
      (FsPath.resourceFile "a.png") FileContent.created (by decide)).1 [[1, 2]]

/-! ## Run-level lemmas -/

theorem needs_backup_of_absent (s : MainMetadata) (m : DocMeta)
    (h : s.items.get m.id = none) : s.needs_backup m = true := by
  simp [MainMetadata.needs_backup, h]

theorem stepPair_store_frame (st : MainMetadata × FileSys) (d : RunDoc)
    (j : Int) (hj : j ≠ d.1.id) :
    (stepPair st d).1.items.get j = st.1.items.get j := by
  unfold stepPair
  rcases docStep_store_eq_or st.1 st.2 d.1 d.2 with h | h <;> rw [h]
  exact st.1.get_track_ne d.1 j hj

theorem foldDocs_spec (l : List RunDoc) (s : MainMetadata) (fs : FileSys)
    (hnodup : (l.map (fun d => d.1.id)).Nodup)
    (hs : ∀ d ∈ l, s.items.get d.1.id = none)
    (hfs : ∀ d ∈ l, HMap.getL fs (FsPath.docFile d.1.id) = none) :
    (∀ d ∈ l, d.2.success = true →
      (l.foldl stepPair (s, fs)).1.items.get d.1.id =
        some ⟨⟨d.1.updated_at⟩, [⟨d.1.updated_at⟩]⟩) ∧
    (∀ d ∈ l, d.2.success = false →
      (l.foldl stepPair (s, fs)).1.items.get d.1.id = none) ∧
    (∀ j, (∀ d ∈ l, d.1.id ≠ j) →
      (l.foldl stepPair (s, fs)).1.items.get j = s.items.get j) ∧
    (∀ q, (∀ d ∈ l, q ≠ FsPath.docFile d.1.id) →
      HMap.getL (l.foldl stepPair (s, fs)).2 q = HMap.getL fs q) := by
  induction l generalizing s fs with
  | nil => exact ⟨by simp, by simp, fun j _ => rfl, fun q _ => rfl⟩
  | cons d t ih =>
    have hhead : d.1.id ∉ t.map (fun d => d.1.id) := (List.nodup_cons.mp hnodup).1
    have htid : ∀ d' ∈ t, d'.1.id ≠ d.1.id := by
      intro d' hd' heq
      exact hhead (heq ▸ List.mem_map_of_mem (fun d => d.1.id) hd')
    have hsd := hs d (List.Mem.head t)
    have hfsd := hfs d (List.Mem.head t)
    have hsfr : ∀ j, j ≠ d.1.id →
        (stepPair (s, fs) d).1.items.get j = s.items.get j :=
      fun j hj => stepPair_store_frame (s, fs) d j hj
    have hffr : ∀ q, q ≠ FsPath.docFile d.1.id →
        HMap.getL (stepPair (s, fs) d).2 q = HMap.getL fs q :=
      fun q hq => docStep_fs_frame s fs d.1 d.2 q hq
    have hpath : ∀ d' ∈ t, FsPath.docFile d'.1.id ≠ FsPath.docFile d.1.id := by
      intro d' hd' heq
      exact htid d' hd' (by injection heq)
    have ihx := ih (stepPair (s, fs) d).1 (stepPair (s, fs) d).2
      (List.nodup_cons.mp hnodup).2
      (fun d' hd' => by rw [hsfr d'.1.id (htid d' hd')]; exact hs d' (List.Mem.tail d hd'))
      (fun d' hd' => by
        rw [hffr (FsPath.docFile d'.1.id) (hpath d' hd')]
        exact hfs d' (List.Mem.tail d hd'))
    have hfold : (d :: t).foldl stepPair (s, fs) =
        t.foldl stepPair ((stepPair (s, fs) d).1, (stepPair (s, fs) d).2) := rfl
    refine ⟨?_, ?_, ?_, ?_⟩
    · intro d' hd' hsucc
      rcases hd' with _ | ⟨_, hd'⟩
      · rw [hfold, (ihx.2.2.1 d.1.id htid)]
        unfold stepPair
        rw [docStep_store_of_success s fs d.1 d.2 hsucc hfsd,
          MainMetadata.get_track_self]
        unfold MainMetadata.storedBackups
        rw [hsd]
        rfl
      · rw [hfold]
        exact ihx.1 d' hd' hsucc
    · intro d' hd' hfail
      rcases hd' with _ | ⟨_, hd'⟩
      · rw [hfold, (ihx.2.2.1 d.1.id htid)]
        unfold stepPair
        rw [docStep_store_of_fail s fs d.1 d.2 hfail]
        exact hsd
      · rw [hfold]
        exact ihx.2.1 d' hd' hfail
    · intro j hj
      rw [hfold, ihx.2.2.1 j (fun d' hd' => hj d' (List.Mem.tail d hd')),
        hsfr j (Ne.symm (hj d (List.Mem.head t)))]
    · intro q hq
      rw [hfold, ihx.2.2.2 q (fun d' hd' => hq d' (List.Mem.tail d hd')),
        hffr q (hq d (List.Mem.head t))]

theorem runChunk_eq_fold (s : MainMetadata) (fs : FileSys)
    (chunk : List RunDoc) (h : ∀ d ∈ chunk, s.items.get d.1.id = none) :
    runChunk (s, fs) chunk = chunk.foldl stepPair (s, fs) := by
  unfold runChunk
  have : chunk.filter (fun d => MainMetadata.needs_backup s d.1) = chunk :=
    List.filter_eq_self.mpr fun d hd => needs_backup_of_absent s d.1 (h d hd)
  rw [this]

theorem runChunks_fold_spec (cs : List (List RunDoc)) (s : MainMetadata)
    (fs : FileSys)
    (hnodup : ((cs.join).map (fun d => d.1.id)).Nodup)
    (hs : ∀ d ∈ cs.join, s.items.get d.1.id = none)
    (hfs : ∀ d ∈ cs.join, HMap.getL fs (FsPath.docFile d.1.id) = none) :
    (∀ d ∈ cs.join, d.2.success = true →
      (cs.foldl runChunk (s, fs)).1.items.get d.1.id =
        some ⟨⟨d.1.updated_at⟩, [⟨d.1.updated_at⟩]⟩) ∧
    (∀ d ∈ cs.join, d.2.success = false →
      (cs.foldl runChunk (s, fs)).1.items.get d.1.id = none) ∧
    (∀ j, (∀ d ∈ cs.join, d.1.id ≠ j) →
      (cs.foldl runChunk (s, fs)).1.items.get j = s.items.get j) ∧
    (∀ q, (∀ d ∈ cs.join, q ≠ FsPath.docFile d.1.id) →
      HMap.getL (cs.foldl runChunk (s, fs)).2 q = HMap.getL fs q) := by
  induction cs generalizing s fs with
  | nil => exact ⟨by simp, by simp, fun j _ => rfl, fun q _ => rfl⟩
  | cons c rest ih =>
    have hjoin : (c :: rest).join = c ++ rest.join := by simp
    rw [hjoin] at hnodup hs hfs
    have hnodup2 : (c.map (fun d => d.1.id) ++
        (rest.join).map (fun d => d.1.id)).Nodup := by
      rw [← List.map_append]; exact hnodup
    have hnodup' := List.nodup_append.mp hnodup2
    have hcnodup : (c.map (fun d => d.1.id)).Nodup := hnodup'.1
    have hrnodup : ((rest.join).map (fun d => d.1.id)).Nodup := hnodup'.2.1
    have hdisj : ∀ d ∈ c, ∀ d' ∈ rest.join, d.1.id ≠ d'.1.id := by
      intro d hd d' hd' heq
      exact hnodup'.2.2 (List.mem_map_of_mem _ hd)
        (heq ▸ List.mem_map_of_mem (fun d => d.1.id) hd')
    have hcs : ∀ d ∈ c, s.items.get d.1.id = none :=
      fun d hd => hs d (List.mem_append_left _ hd)
    have hcfs : ∀ d ∈ c, HMap.getL fs (FsPath.docFile d.1.id) = none :=
      fun d hd => hfs d (List.mem_append_left _ hd)
    have hchunk := foldDocs_spec c s fs hcnodup hcs hcfs
    have hstep : (c :: rest).foldl runChunk (s, fs) =
        rest.foldl runChunk
          ((c.foldl stepPair (s, fs)).1, (c.foldl stepPair (s, fs)).2) := by
      rw [List.foldl_cons, runChunk_eq_fold s fs c hcs]
    have ihx := ih (c.foldl stepPair (s, fs)).1 (c.foldl stepPair (s, fs)).2
      hrnodup
      (fun d' hd' => by
        rw [hchunk.2.2.1 d'.1.id (fun d hd => hdisj d hd d' hd')]
        exact hs d' (List.mem_append_right _ hd'))
      (fun d' hd' => by
        rw [hchunk.2.2.2 (FsPath.docFile d'.1.id)
          (fun d hd heq => hdisj d hd d' hd' (by injection heq.symm))]
        exact hfs d' (List.mem_append_right _ hd'))
    refine ⟨?_, ?_, ?_, ?_⟩
    · intro d hd hsucc
      rcases List.mem_append.mp hd with hd | hd
      · rw [hstep,
          ihx.2.2.1 d.1.id (fun d' hd' => (hdisj d hd d' hd').symm)]
        exact hchunk.1 d hd hsucc
      · rw [hstep]
        exact ihx.1 d hd hsucc
    · intro d hd hfail
      rcases List.mem_append.mp hd with hd | hd
      · rw [hstep,
          ihx.2.2.1 d.1.id (fun d' hd' => (hdisj d hd d' hd').symm)]
        exact hchunk.2.1 d hd hfail
      · rw [hstep]
        exact ihx.2.1 d hd hfail
    · intro j hj
      rw [hstep,
        ihx.2.2.1 j (fun d' hd' => hj d' (List.mem_append_right _ hd')),
        hchunk.2.2.1 j (fun d hd => hj d (List.mem_append_left _ hd))]
    · intro q hq
      rw [hstep,
        ihx.2.2.2 q (fun d' hd' => hq d' (List.mem_append_right _ hd')),
        hchunk.2.2.2 q (fun d hd => hq d (List.mem_append_left _ hd))]

theorem chunks8_join : ∀ (l : List α), (chunks8 l).join = l
  | [] => by simp [chunks8]
  | x :: xs => by
    rw [chunks8]
    simp only [List.join_cons, chunks8_join (xs.drop 7)]
    simp [List.take_append_drop]
termination_by l => l.length
decreasing_by simp only [List.length_drop, List.length_cons]; omega

/-! ## The partial-failure claim -/

/-- **C6.** If fetching or writing fails for a subset of a run's documents
(none of which were previously backed up), the run still completes: it
tracks the successful documents in the store that is serialized at the end
of the run (main.rs:239), failures abort neither their chunk nor the run,
and every failed document is left with `needs_backup = true` after the
run.  Documents are identified by their ids, which are assumed pairwise
distinct; the run's backup directory starts empty (main.rs:147-151). -/
theorem per_document_failure_isolation (s : MainMetadata) (docs : List RunDoc)
    (hnodup : (docs.map (fun d => d.1.id)).Nodup)
    (hfresh : ∀ d ∈ docs, s.items.get d.1.id = none) :
    (∀ d ∈ docs, d.2.success = true →
      (runMetas s [] docs).1.items.get d.1.id =
        some ⟨⟨d.1.updated_at⟩, [⟨d.1.updated_at⟩]⟩) ∧
    (∀ d ∈ docs, d.2.success = false →
      (runMetas s [] docs).1.items.get d.1.id = none ∧
      (runMetas s [] docs).1.needs_backup d.1 = true) := by
  have hj := chunks8_join docs
  have h := runChunks_fold_spec (chunks8 docs) s []
    (by rw [hj]; exact hnodup)
    (by rw [hj]; exact hfresh)
    (by rw [hj]; intro d _; rfl)
  rw [hj] at h
  refine ⟨fun d hd hsucc => h.1 d hd hsucc, fun d hd hfail => ?_⟩
  have habs := h.2.1 d hd hfail
  exact ⟨habs, needs_backup_of_absent _ d.1 habs⟩

/-- Witness for `per_document_failure_isolation`: one successful document and
one whose fetch failed. -/
theorem per_document_failure_isolation_witness :
    (∀ d ∈ ([(⟨1, 5⟩, ⟨.ok ⟨1, "t", "s", "x", 9, "d", "f", 5,
          none, none, none, none⟩, true, true, true⟩),
        (⟨2, 6⟩, ⟨.error "net", true, true, true⟩)] : List RunDoc),
      d.2.success = true →
      (runMetas MainMetadata.default [] [(⟨1, 5⟩, ⟨.ok ⟨1, "t", "s", "x", 9, "d", "f", 5,
          none, none, none, none⟩, true, true, true⟩),
        (⟨2, 6⟩, ⟨.error "net", true, true, true⟩)]).1.items.get d.1.id =
        some ⟨⟨d.1.updated_at⟩, [⟨d.1.updated_at⟩]⟩) ∧
    (∀ d ∈ ([(⟨1, 5⟩, ⟨.ok ⟨1, "t", "s", "x", 9, "d", "f", 5,
          none, none, none, none⟩, true, true, true⟩),
        (⟨2, 6⟩, ⟨.error "net", true, true, true⟩)] : List RunDoc),
      d.2.success = false →
      (runMetas MainMetadata.default [] [(⟨1, 5⟩, ⟨.ok ⟨1, "t", "s", "x", 9, "d", "f", 5,
          none, none, none, none⟩, true, true, true⟩),
        (⟨2, 6⟩, ⟨.error "net", true, true, true⟩)]).1.items.get d.1.id = none ∧
      (runMetas MainMetadata.default [] [(⟨1, 5⟩, ⟨.ok ⟨1, "t", "s", "x", 9, "d", "f", 5,
          none, none, none, none⟩, true, true, true⟩),
        (⟨2, 6⟩, ⟨.error "net", true, true, true⟩)]).1.needs_backup d.1 = true) :=
  per_document_failure_isolation MainMetadata.default _
    (by decide) (fun d _ => rfl)

/-! ## JSON persistence of the store

The store is serialized once at end of run (`serde_json::to_vec_pretty`,
main.rs:239) and loaded once at startup (main.rs:158-163); the shapes come
from the serde derives on `MainMetadata`, `MetaItem`, `BackupTime`
(store.rs:8-22) and `Repo` (main.rs:65-72). -/

/-- Model of the JSON values the program writes and reads.  Two
abstractions, each backed by an injective rendering: the i64 keys of the
`items`/`books` maps appear in real JSON as their decimal strings
(`imap` keeps them as `Int`), and timestamps appear as ISO-8601 strings at
serde's encoding precision (`time` keeps them as the `Timestamp`). -/
inductive Json
  | str (s : String)
  | int (n : Int)
  | time (t : Timestamp)
  | arr (elems : List Json)
  | obj (fields : List (String × Json))
  | imap (entries : List (Int × Json))

/-- `BackupTime` is `#[serde(transparent)]` with an ISO-8601 string body
(store.rs:14-16). -/
def encodeTime (b : BackupTime) : Json := .time b.t

/-- Serialization of `MetaItem` (store.rs:18-22). -/
def encodeMetaItem (it : MetaItem) : Json :=
  .obj [("last_updated", encodeTime it.last_updated),
        ("backups", .arr (it.backups.map encodeTime))]

/-- Serialization of `Repo` (main.rs:65-72). -/
def encodeRepo (r : Repo) : Json :=
  .obj [("id", .int r.id), ("slug", .str r.slug), ("name", .str r.name),
        ("updated_at", .time r.updated_at)]

/-- Serialization of `MainMetadata` (store.rs:8-12): the two maps, each an
object whose entries follow the map's iteration order. -/
def encodeMeta (s : MainMetadata) : Json :=
  .obj [("items", .imap (s.items.entries.map (fun p => (p.1, encodeMetaItem p.2)))),
        ("books", .imap (s.books.entries.map (fun p => (p.1, encodeRepo p.2))))]

def decodeTime : Json → Option BackupTime
  | .time t => some ⟨t⟩
  | _ => none

/-- Deserialize a JSON array by visiting its elements in order (serde's
sequence visitor). -/
def decodeList (dec : Json → Option α) : List Json → Option (List α)
  | [] => some []
  | j :: js => do
    let x ← dec j
    let xs ← decodeList dec js
    pure (x :: xs)

/-- Deserialization of `MetaItem`: look the two fields up by name. -/
def decodeMetaItem : Json → Option MetaItem
  | .obj fields => do
    let lu ← (HMap.getL fields "last_updated").bind decodeTime
    let bs ← match HMap.getL fields "backups" with
      | some (.arr xs) => decodeList decodeTime xs
      | _ => none
    pure ⟨lu, bs⟩
  | _ => none

/-- Deserialization of `Repo`. -/
def decodeRepo : Json → Option Repo
  | .obj fields => do
    let i ← match HMap.getL fields "id" with
      | some (.int n) => some n
      | _ => none
    let sl ← match HMap.getL fields "slug" with
      | some (.str v) => some v
      | _ => none
    let nm ← match HMap.getL fields "name" with
      | some (.str v) => some v
      | _ => none
    let up ← match HMap.getL fields "updated_at" with
      | some (.time t) => some t
      | _ => none
    pure ⟨i, sl, nm, up⟩
  | _ => none

/-- Deserialize a map's entries in order, decoding each value. -/
def decodeEntryList (dec : Json → Option α) :
    List (Int × Json) → Option (List (Int × α))
  | [] => some []
  | p :: es => do
    let v ← dec p.2
    let rest ← decodeEntryList dec es
    pure ((p.1, v) :: rest)

/-- Deserialization of a `HashMap<i64, V>`: visit the entries in order and
insert each into a fresh map (serde's map visitor). -/
def decodeEntries (dec : Json → Option α) (entries : List (Int × Json)) :
    Option (HMap α) :=
  (decodeEntryList dec entries).map (fun l => HMap.ofList ⟨[]⟩ l)

/-- Deserialization of `MainMetadata`. -/
def decodeMeta : Json → Option MainMetadata
  | .obj fields => do
    let its ← match HMap.getL fields "items" with
      | some (.imap es) => decodeEntries decodeMetaItem es
      | _ => none
    let bks ← match HMap.getL fields "books" with
      | some (.imap es) => decodeEntries decodeRepo es
      | _ => none
    pure ⟨its, bks⟩
  | _ => none

/-- The startup metadata load (main.rs:158-163):
`File::open(..).ok().and_then(|file| serde_json::from_reader(file).ok()).unwrap_or_default()`.
`file` is the metadata file's JSON content when the file could be opened,
`none` when it is absent. -/
def loadMainMetadata (file : Option Json) : MainMetadata :=
  (file.bind decodeMeta).getD MainMetadata.default

/-! ## Round-trip lemmas -/

theorem decodeTime_encodeTime (b : BackupTime) :
    decodeTime (encodeTime b) = some b := rfl

theorem decodeList_map (dec : Json → Option α) (enc : α → Json)
    (h : ∀ x, dec (enc x) = some x) (l : List α) :
    decodeList dec (l.map enc) = some l := by
  induction l with
  | nil => rfl
  | cons x t ih => simp [decodeList, h, ih]

theorem decodeEntryList_map (dec : Json → Option α) (enc : α → Json)
    (h : ∀ x, dec (enc x) = some x) (l : List (Int × α)) :
    decodeEntryList dec (l.map (fun p => (p.1, enc p.2))) = some l := by
  induction l with
  | nil => rfl
  | cons p t ih => simp [decodeEntryList, h, ih]

theorem decodeMetaItem_encodeMetaItem (it : MetaItem) :
    decodeMetaItem (encodeMetaItem it) = some it := by
  simp [decodeMetaItem, encodeMetaItem, HMap.getL,
    decodeList_map decodeTime encodeTime decodeTime_encodeTime]
  rfl

theorem decodeRepo_encodeRepo (r : Repo) :
    decodeRepo (encodeRepo r) = some r := rfl

theorem ofList_of_fresh (acc l : List (Int × α))
    (hd : ∀ p ∈ l, HMap.getL acc p.1 = none)
    (hn : (l.map Prod.fst).Nodup) :
    HMap.ofList ⟨acc⟩ l = ⟨acc ++ l⟩ := by
  induction l generalizing acc with
  | nil => simp [HMap.ofList]
  | cons p t ih =>
    have hstep : HMap.insert ⟨acc⟩ p.1 p.2 = ⟨acc ++ [p]⟩ := by
      have : HMap.get ⟨acc⟩ p.1 = none := hd p (List.Mem.head t)
      simp [HMap.insert, this]
    have hfold : HMap.ofList ⟨acc⟩ (p :: t) =
        HMap.ofList (HMap.insert ⟨acc⟩ p.1 p.2) t := rfl
    have hhead : p.1 ∉ t.map Prod.fst := (List.nodup_cons.mp hn).1
    have htl : ∀ q ∈ t, HMap.getL (acc ++ [p]) q.1 = none := by
      intro q hq
      rw [HMap.getL_append, hd q (List.Mem.tail p hq)]
      have : q.1 ≠ p.1 := fun he =>
        hhead (he ▸ List.mem_map_of_mem Prod.fst hq)
      simp [HMap.getL, Ne.symm this]
    rw [hfold, hstep, ih (acc ++ [p]) htl (List.nodup_cons.mp hn).2]
    simp

theorem decodeEntries_round (dec : Json → Option α) (enc : α → Json)
    (h : ∀ x, dec (enc x) = some x) (l : List (Int × α))
    (hn : (l.map Prod.fst).Nodup) :
    decodeEntries dec (l.map (fun p => (p.1, enc p.2))) = some ⟨l⟩ := by
  rw [decodeEntries, decodeEntryList_map dec enc h l, Option.map_some',
    ofList_of_fresh [] l (fun p _ => rfl) hn]
  simp

/-! ## Claims about persistence -/

/-- **C9.** Serializing a valid `MainMetadata` (one whose maps have
distinct keys, as every `HashMap` does) and deserializing the result
yields a structure equal to the original — timestamps being compared at
the precision used for the ISO-8601 encoding, which is the precision the
embedding's `Timestamp` carries. -/
theorem metadata_round_trip (s : MainMetadata)
    (hitems : (s.items.entries.map Prod.fst).Nodup)
    (hbooks : (s.books.entries.map Prod.fst).Nodup) :
    decodeMeta (encodeMeta s) = some s := by
  have hi := decodeEntries_round decodeMetaItem encodeMetaItem
    decodeMetaItem_encodeMetaItem s.items.entries hitems
  have hb := decodeEntries_round decodeRepo encodeRepo
    decodeRepo_encodeRepo s.books.entries hbooks
  simp [decodeMeta, encodeMeta, HMap.getL, hi, hb]

/-- Witness for `metadata_round_trip` at a concrete store. -/
theorem metadata_round_trip_witness :
    decodeMeta (encodeMeta ⟨⟨[(1, ⟨⟨5⟩, [⟨5⟩]⟩), (2, ⟨⟨9⟩, [⟨7⟩, ⟨9⟩]⟩)]⟩,
        ⟨[(4, ⟨4, "s", "n", 3⟩)]⟩⟩) =
      some ⟨⟨[(1, ⟨⟨5⟩, [⟨5⟩]⟩), (2, ⟨⟨9⟩, [⟨7⟩, ⟨9⟩]⟩)]⟩,
        ⟨[(4, ⟨4, "s", "n", 3⟩)]⟩⟩ :=
  metadata_round_trip ⟨⟨[(1, ⟨⟨5⟩, [⟨5⟩]⟩), (2, ⟨⟨9⟩, [⟨7⟩, ⟨9⟩]⟩)]⟩,
      ⟨[(4, ⟨4, "s", "n", 3⟩)]⟩⟩ (by decide) (by decide)

/-- **C8.** At startup, if the metadata file is absent or its contents
fail to parse as a `MainMetadata`, the program proceeds with the default
`MainMetadata` — empty `items` and `books` maps — instead of signaling a
fatal error. -/
theorem load_absent_or_corrupt_defaults :
    loadMainMetadata none = MainMetadata.default ∧
    (∀ j, decodeMeta j = none →
      loadMainMetadata (some j) = MainMetadata.default) ∧
    MainMetadata.default.items = ⟨[]⟩ ∧ MainMetadata.default.books = ⟨[]⟩ := by
  refine ⟨rfl, fun j h => ?_, rfl, rfl⟩
  simp [loadMainMetadata, h]

/-- Witness for `load_absent_or_corrupt_defaults`: a file whose contents
are not even a JSON object parses to nothing and yields the default. -/
theorem load_absent_or_corrupt_defaults_witness :
    loadMainMetadata (some (Json.str "corrupt")) = MainMetadata.default :=
  load_absent_or_corrupt_defaults.2.1 (Json.str "corrupt") rfl

end YuqueSquirrel
